import Mathlib

/-!
Shallow embedding of the snowflake_linter SQL style checker.

Strings are modelled as `List Char`; every scanning routine is written by
structural recursion so that all definitions evaluate inside the kernel.
Each definition mirrors one Python function of the repository:
`normalize_sql` and the rule classes `RuleKeywordCase`, `RuleSelectStar`,
`RuleUnqualifiedColumns` and `RuleWindowOrderBy`.
-/

/-- Single-quote character, written via its code point. -/
def sqChar : Char := Char.ofNat 39

/-- Double-quote character, written via its code point. -/
def dqChar : Char := Char.ofNat 34

/-- ASCII whitespace class of Python's regex `\s`. -/
def isSpaceCh (c : Char) : Bool :=
  c == ' ' || c == '\t' || c == '\n' || c == '\r' || c == Char.ofNat 11 || c == Char.ofNat 12

/-- ASCII word-character class of Python's regex `\w`. -/
def isWordCh (c : Char) : Bool :=
  c.isAlpha || c.isDigit || c == '_'

/-- Case-insensitive character comparison (ASCII, as used for our inputs). -/
def lowEq (a b : Char) : Bool := a.toLower == b.toLower

/-- Splitting on a separator character, the semantics of Python `str.split(sep)`. -/
def splitCh (sep : Char) : List Char → List (List Char)
  | [] => [[]]
  | c :: rest =>
    match splitCh sep rest with
    | [] => [[]]
    | l :: ls => if c = sep then [] :: l :: ls else (c :: l) :: ls

/-- Locate the first occurrence of the two-character pattern `a b`; on success
return the part strictly before it and the part strictly after it. -/
def splitPair (a b : Char) : List Char → Option (List Char × List Char)
  | x :: y :: rest =>
    if x = a ∧ y = b then some ([], rest)
    else
      match splitPair a b (y :: rest) with
      | some (p, q) => some (x :: p, q)
      | none => none
  | _ => none

/-- Whether the two-character pattern `a b` occurs (adjacent) in the list. -/
def hasPair (a b : Char) : List Char → Bool
  | x :: y :: rest => if x = a ∧ y = b then true else hasPair a b (y :: rest)
  | _ => false

/-- Line-comment removal, the semantics of
`re.sub(r"--.*?$", "", sql, flags=re.MULTILINE)`: each line is truncated at
its first `--`; newline characters are kept.  The boolean state is true while
skipping the remainder of a commented line. -/
def lineStripGo : Bool → List Char → List Char
  | _, [] => []
  | true, c :: rest =>
    if c = '\n' then c :: lineStripGo false rest else lineStripGo true rest
  | false, c :: rest =>
    if c = '\n' then c :: lineStripGo false rest
    else if c = '-' ∧ rest.head? = some '-' then lineStripGo true rest
    else c :: lineStripGo false rest

/-- First step of `normalize_sql`: strip `--` line comments. -/
def lineStrip (s : List Char) : List Char := lineStripGo false s

/-- Block-comment removal, the semantics of
`re.sub(r"/\*.*?\*/", "", sql, flags=re.DOTALL)`: at each position, if a
complete non-greedy `/* ... */` match starts there it is deleted (the skip
counter deletes the remaining characters of the match), otherwise the
character is kept and scanning moves one position right. -/
def blockGo : Nat → List Char → List Char
  | _, [] => []
  | j+1, _ :: rest => blockGo j rest
  | 0, c :: rest =>
    if c = '/' ∧ rest.head? = some '*' then
      match splitPair '*' '/' rest.tail with
      | some (mid, _) => blockGo (mid.length + 3) rest
      | none => c :: blockGo 0 rest
    else c :: blockGo 0 rest

/-- Core of `normalize_sql`: remove `--` comments, then `/* */` comments. -/
def normalizeSql (s : List Char) : List Char := blockGo 0 (lineStrip s)

/-- The source function `normalize_sql` of `src/utils/sql_utils.py`. -/
def normalize_sql (sql : String) : String := String.mk (normalizeSql sql.toList)

/-- Content scan for the quote-masking regex `q([^q]|qq)*q` starting just
after an opening quote: `some k` means the `k` following characters are the
literal's body and the character at offset `k` is the closing quote (a final
unpaired quote of a doubled pair acts as the closer, which is the regex
engine's backtracking behaviour); `none` means no quote occurs at all. -/
def scanContent (q : Char) : List Char → Option Nat
  | [] => none
  | c :: rest =>
    if c = q then
      match rest with
      | r :: rest2 =>
        if r = q then
          match scanContent q rest2 with
          | some n => some (n + 2)
          | none => some 0
        else some 0
      | [] => some 0
    else (scanContent q rest).map (fun n => n + 1)

/-- Quote masking for one quote character: every matched literal (quotes
included) is overwritten with spaces; the skip counter `j` counts characters
of the current match still to be blanked. -/
def maskGo (q : Char) : Nat → List Char → List Char
  | _, [] => []
  | j+1, _ :: rest => ' ' :: maskGo q j rest
  | 0, c :: rest =>
    if c = q then
      match scanContent q rest with
      | some k => ' ' :: maskGo q (k + 1) rest
      | none => c :: maskGo q 0 rest
    else c :: maskGo q 0 rest

/-- Core of `RuleKeywordCase._mask_quotes`: mask single-quoted literals, then
double-quoted literals, keeping the length of the line. -/
def maskQuotes (s : List Char) : List Char := maskGo dqChar 0 (maskGo sqChar 0 s)

/-- The source method `RuleKeywordCase._mask_quotes`. -/
def RuleKeywordCase.mask_quotes (line : String) : String := String.mk (maskQuotes line.toList)

/-- Longest run of characters satisfying `p`: its length and the remainder. -/
def charRun (p : Char → Bool) : List Char → Nat × List Char
  | [] => (0, [])
  | c :: rest =>
    if p c then
      let r := charRun p rest
      (r.1 + 1, r.2)
    else (0, c :: rest)

/-- Case-insensitive literal match: consume the word `w` from the input,
returning the remainder on success. -/
def matchCI : List Char → List Char → Option (List Char)
  | [], l => some l
  | _ :: _, [] => none
  | w :: ws, c :: cs => if lowEq w c then matchCI ws cs else none

/-- Match the tail of a keyword phrase (`\s+` then the next word, repeatedly),
then the closing `\b` word boundary; returns the remainder after the phrase. -/
def kwRest : List (List Char) → List Char → Option (List Char)
  | [], [] => some []
  | [], c :: cs => if isWordCh c then none else some (c :: cs)
  | w :: ws, l =>
    let r := charRun isSpaceCh l
    if r.1 = 0 then none
    else
      match matchCI w r.2 with
      | none => none
      | some l2 => kwRest ws l2

/-- Match a whole keyword phrase at the head of `l` (the leading `\b` is
checked by the caller); `some n` is the number of characters matched. -/
def kwMatchAt (ws : List (List Char)) (l : List Char) : Option Nat :=
  match ws with
  | [] => none
  | w :: ws' =>
    match matchCI w l with
    | none => none
    | some l1 =>
      match kwRest ws' l1 with
      | none => none
      | some l2 => some (l.length - l2.length)

/-- The leading `\b` test: the previous character must not be a word character. -/
def boundaryOk : Option Char → Bool
  | none => true
  | some c => !isWordCh c

/-- All matches of a keyword phrase in a line, `re.finditer` style: scan left
to right, record `(start, end)` spans, and resume after each match (the skip
counter makes matches non-overlapping). -/
def kwGo (ws : List (List Char)) : Nat → Option Char → Nat → List Char → List (Nat × Nat)
  | _, _, _, [] => []
  | j+1, _, i, c :: rest => kwGo ws j (some c) (i+1) rest
  | 0, prev, i, c :: rest =>
    if boundaryOk prev then
      match kwMatchAt ws (c :: rest) with
      | some n => (i, i + n) :: kwGo ws (n - 1) (some c) (i + 1) rest
      | none => kwGo ws 0 (some c) (i + 1) rest
    else kwGo ws 0 (some c) (i + 1) rest

/-- A keyword phrase as its list of words (split on the space character). -/
def kwWords (kw : List Char) : List (List Char) := splitCh ' ' kw

/-- Whether `re.search` of the phrase pattern succeeds on the line. -/
def hasKwMatch (ws : List (List Char)) (l : List Char) : Bool :=
  !(kwGo ws 0 none 0 l).isEmpty

/-- The `RuleKeywordCase.KEYWORDS` list of the source, in source order. -/
def KEYWORDS : List (List Char) :=
  (["select", "from", "where", "group by", "order by", "limit", "having",
    "join", "left join", "right join", "inner join", "outer join", "on"] :
    List String).map String.toList

/-- Stable insertion for sorting by length, descending: an element is placed
after all existing elements of greater or equal length. -/
def insertD (x : List Char) : List (List Char) → List (List Char)
  | [] => [x]
  | y :: ys => if y.length < x.length then x :: y :: ys else y :: insertD x ys

/-- The keyword list sorted by length descending, stably — the order produced
by `patterns.sort(key=..., reverse=True)` in the source. -/
def sortedKeywords : List (List Char) :=
  KEYWORDS.foldl (fun acc k => insertD k acc) []

/-- A violation record; the same fields as the source's dictionaries and
`LintResult` objects. -/
structure LintResult where
  rule : String
  severity : String
  line : Nat
  file : String
  message : String
  description : String
deriving DecidableEq

/-- The single-quote character as a string (for message assembly). -/
def sqStr : String := String.mk [sqChar]

/-- Uppercase a token, the semantics of Python `str.upper()` on ASCII text. -/
def mapUpper (l : List Char) : List Char := l.map Char.toUpper

/-- Inner loop of `RuleKeywordCase.check` for one keyword pattern: walk the
match list, drop matches contained in an accepted span, flag matches whose
raw text is not all uppercase, and extend the accepted spans. Returns the
flagged `(start, end, raw text)` triples and the updated accepted spans. -/
def kwInner (raw : List Char) :
    List (Nat × Nat) → List (Nat × Nat) → List (Nat × Nat × List Char) × List (Nat × Nat)
  | [], acc => ([], acc)
  | (s, e) :: ms, acc =>
    if acc.any (fun p => decide (p.1 ≤ s) && decide (e ≤ p.2)) then
      kwInner raw ms acc
    else
      if (raw.drop s).take (e - s) = mapUpper ((raw.drop s).take (e - s)) then
        kwInner raw ms acc
      else
        ((s, e, (raw.drop s).take (e - s)) :: (kwInner raw ms (acc ++ [(s, e)])).1,
         (kwInner raw ms (acc ++ [(s, e)])).2)

/-- Outer loop of `RuleKeywordCase.check` over the sorted keyword patterns,
threading the accepted spans. -/
def kwLoop (raw masked : List Char) :
    List (List Char) → List (Nat × Nat) → List (Nat × Nat × List Char)
  | [], _ => []
  | kw :: kws, acc =>
    (kwInner raw (kwGo (kwWords kw) 0 none 0 masked) acc).1 ++
    kwLoop raw masked kws (kwInner raw (kwGo (kwWords kw) 0 none 0 masked) acc).2

/-- All keyword-case violations of one line, as `(start, end, raw text)`
triples: the matching runs on the masked line, the flagged text is the raw
slice. -/
def kwLineMatches (raw : List Char) : List (Nat × Nat × List Char) :=
  kwLoop raw (maskQuotes raw) sortedKeywords []

/-- Per-line assembly of `RuleKeywordCase.check` violation records. -/
def kwPerLine (file : List Char) : Nat → List (List Char) → List LintResult
  | _, [] => []
  | i, l :: ls =>
    ((kwLineMatches l).map fun m =>
      (⟨"KEYWORD_CASE", "INFO", i, String.mk file,
        "Keyword " ++ sqStr ++ String.mk m.2.2 ++ sqStr ++ " should be uppercase.",
        "Ensure core SQL keywords are uppercase"⟩ : LintResult)) ++
    kwPerLine file (i + 1) ls

/-- The source method `RuleKeywordCase.check`. -/
def RuleKeywordCase.check (sql : String) (file : String) : List LintResult :=
  kwPerLine file.toList 1 (splitCh '\n' (normalizeSql sql.toList))

/-- Match of `\bselect\s+\*` at the head of a line (leading `\b` checked by
the caller); `some n` is the number of characters matched. -/
def starMatchAt (l : List Char) : Option Nat :=
  match matchCI ("select".toList) l with
  | none => none
  | some l1 =>
    let r := charRun isSpaceCh l1
    if r.1 = 0 then none
    else
      match r.2 with
      | c :: rest2 => if c = '*' then some (l.length - rest2.length) else none
      | [] => none

/-- All `select *` match start positions in one line, `re.finditer` style. -/
def starGo : Nat → Option Char → Nat → List Char → List Nat
  | _, _, _, [] => []
  | j+1, _, i, c :: rest => starGo j (some c) (i+1) rest
  | 0, prev, i, c :: rest =>
    if boundaryOk prev then
      match starMatchAt (c :: rest) with
      | some n => i :: starGo (n - 1) (some c) (i + 1) rest
      | none => starGo 0 (some c) (i + 1) rest
    else starGo 0 (some c) (i + 1) rest

/-- All `select *` matches of a line. -/
def starFind (l : List Char) : List Nat := starGo 0 none 0 l

/-- Per-line assembly of `RuleSelectStar.check` violation records. -/
def starPerLine (file : List Char) : Nat → List (List Char) → List LintResult
  | _, [] => []
  | i, l :: ls =>
    ((starFind l).map fun _ =>
      (⟨"SELECT_STAR", "WARNING", i, String.mk file,
        "Avoid SELECT *. Explicitly list columns.",
        "Avoid SELECT *. Explicitly list columns."⟩ : LintResult)) ++
    starPerLine file (i + 1) ls

/-- The source method `RuleSelectStar.check`: note it scans the raw input,
with no comment removal and no quote masking. -/
def RuleSelectStar.check (sql : String) (file : String) : List LintResult :=
  starPerLine file.toList 1 (splitCh '\n' sql.toList)

/-- Character class `[\w.]` used for table names and column references. -/
def wordDotCh (c : Char) : Bool := isWordCh c || c == '.'

/-- Fallback for the optional `(?:AS\s+)?` group: capture `(\w+)` directly;
returns the match's total consumed length (relative to `l`) and the alias. -/
def aliasFallback (l rest : List Char) : Option (Nat × List Char) :=
  let w := charRun isWordCh rest
  if w.1 = 0 then none else some (l.length - w.2.length, rest.take w.1)

/-- Match of `FROM\s+[\w.]+\s+(?:AS\s+)?(\w+)` at the head of `l`, with the
regex engine's backtracking on the optional `AS` group; `some (n, a)` is the
total matched length and the captured alias. -/
def fromMatchAt (l : List Char) : Option (Nat × List Char) :=
  match matchCI ("from".toList) l with
  | none => none
  | some l1 =>
    let sp1 := charRun isSpaceCh l1
    if sp1.1 = 0 then none
    else
      let tbl := charRun wordDotCh sp1.2
      if tbl.1 = 0 then none
      else
        let sp2 := charRun isSpaceCh tbl.2
        if sp2.1 = 0 then none
        else
          match matchCI ("as".toList) sp2.2 with
          | some l4 =>
            let sp3 := charRun isSpaceCh l4
            if sp3.1 = 0 then aliasFallback l sp2.2
            else
              let w := charRun isWordCh sp3.2
              if w.1 = 0 then aliasFallback l sp2.2
              else some (l.length - w.2.length, sp3.2.take w.1)
          | none => aliasFallback l sp2.2

/-- All alias captures in scanning order, `re.finditer` style. -/
def aliasGo : Nat → List Char → List (List Char)
  | _, [] => []
  | j+1, _ :: rest => aliasGo j rest
  | 0, c :: rest =>
    match fromMatchAt (c :: rest) with
    | some (n, a) => a :: aliasGo (n - 1) rest
    | none => aliasGo 0 rest

/-- The keyword denylist of `extract_table_aliases`. -/
def aliasDenylist : List (List Char) :=
  (["WHERE", "JOIN", "LEFT", "RIGHT", "INNER", "OUTER", "ON", "GROUP", "ORDER",
    "LIMIT"] : List String).map String.toList

/-- Core of `RuleUnqualifiedColumns.extract_table_aliases`: collect captured
aliases, excluding denylisted words, without duplicates (the source stores
them in a set). -/
def aliasList (sql : List Char) : List (List Char) :=
  (aliasGo 0 sql).foldl
    (fun acc a =>
      if mapUpper a ∈ aliasDenylist then acc
      else if a ∈ acc then acc else acc ++ [a]) []

/-- The source method `RuleUnqualifiedColumns.extract_table_aliases`. -/
def RuleUnqualifiedColumns.extract_table_aliases (sql : String) : List String :=
  (aliasList sql.toList).map String.mk

/-- Bounding class `[,\s(]` of the column pattern. -/
def boundCh (c : Char) : Bool := c == ',' || isSpaceCh c || c == '('

/-- Terminator class `(?:\s|,|$|\))` of the column pattern. -/
def termCh (c : Char) : Bool := isSpaceCh c || c == ',' || c == ')'

/-- Consume the column pattern's terminator: one terminator character, or the
end of the line ($). -/
def colTerm : List Char → Option Nat
  | [] => some 0
  | c :: _ => if termCh c then some 1 else none

/-- Scan for column-pattern matches whose bounding character is `[,\s(]`
(every position except the start of the line). -/
def colGo : Nat → List Char → List (List Char)
  | j+1, _ :: rest => colGo j rest
  | _, [] => []
  | 0, c :: rest =>
    if boundCh c then
      let r := charRun wordDotCh rest
      if r.1 = 0 then colGo 0 rest
      else
        match colTerm r.2 with
        | some tn => (rest.take r.1) :: colGo (r.1 + tn) rest
        | none => colGo 0 rest
    else colGo 0 rest

/-- All captures of `(?:^|[,\s(])([\w.]+)(?:\s|,|$|\))` in one line, in match
order: the `^` alternative applies only at position 0, then `colGo` handles
the bounded alternative. -/
def colFind (l : List Char) : List (List Char) :=
  let r := charRun wordDotCh l
  if r.1 = 0 then colGo 0 l
  else
    match colTerm r.2 with
    | some tn =>
      (l.take r.1) ::
        (match l with
         | [] => []
         | _ :: rest => colGo (r.1 + tn - 1) rest)
    | none => colGo 0 l

/-- The token filter of `extract_select_columns`: non-empty, not all digits,
not one of SELECT/DISTINCT/AS. -/
def keepCol (t : List Char) : Bool :=
  !t.isEmpty && !(t.all Char.isDigit) &&
  !((["SELECT", "DISTINCT", "AS"] : List String).map String.toList |>.contains (mapUpper t))

/-- Whether `re.search(r"\bSELECT\b", line, re.IGNORECASE)` succeeds. -/
def hasSelectKw (l : List Char) : Bool := hasKwMatch (kwWords ("select".toList)) l

/-- The six clause-terminator phrases of `extract_select_columns`. -/
def termPhrases : List (List (List Char)) :=
  (["from", "where", "group by", "order by", "limit", "having"] : List String).map
    (fun s => kwWords s.toList)

/-- Whether the clause-terminator pattern matches somewhere on the line. -/
def terminatorHit (l : List Char) : Bool := termPhrases.any (fun ws => hasKwMatch ws l)

/-- Line loop of `extract_select_columns`: track the `in_select` flag; note
the flag is turned off by a terminator before the line's columns would be
extracted, so a line holding both `SELECT` and a terminator yields nothing. -/
def extractColsGo : Nat → Bool → List (List Char) → List (Nat × List Char)
  | _, _, [] => []
  | i, inSel, l :: ls =>
    let s1 := if hasSelectKw l then true else inSel
    let s2 := if s1 && terminatorHit l then false else s1
    (if s2 then (colFind l).filterMap (fun t => if keepCol t then some (i, t) else none)
     else []) ++ extractColsGo (i + 1) s2 ls

/-- Core of `RuleUnqualifiedColumns.extract_select_columns`. -/
def extractCols (sql : List Char) : List (Nat × List Char) :=
  extractColsGo 1 false (splitCh '\n' sql)

/-- The source method `RuleUnqualifiedColumns.extract_select_columns`. -/
def RuleUnqualifiedColumns.extract_select_columns (sql : String) : List (Nat × String) :=
  (extractCols sql.toList).map fun p => (p.1, String.mk p.2)

/-- The aggregate/function/control keyword list of `is_unqualified`. -/
def funcKws : List (List Char) :=
  (["COUNT", "SUM", "AVG", "MAX", "MIN", "DISTINCT", "CAST", "CASE", "WHEN",
    "THEN", "ELSE", "END"] : List String).map String.toList

/-- Whether `re.match(r"^KW\b", column, re.IGNORECASE)` succeeds for `k`. -/
def ciStarts (col k : List Char) : Bool :=
  match matchCI k col with
  | some [] => true
  | some (c :: _) => !isWordCh c
  | none => false

/-- Core of `RuleUnqualifiedColumns.is_unqualified`. -/
def isUnqualifiedL (col : List Char) : Bool :=
  if funcKws.any (fun k => ciStarts col k) then false
  else if (["*", "NULL", "TRUE", "FALSE"] : List String).map String.toList |>.contains col then false
  else if col.contains '.' then false
  else true

/-- The source method `RuleUnqualifiedColumns.is_unqualified`. -/
def RuleUnqualifiedColumns.is_unqualified (column : String) : Bool :=
  isUnqualifiedL column.toList

/-- Reporting loop of `RuleUnqualifiedColumns.check`, with the `seen`
deduplication set. -/
def unqLoop (file : List Char) : List (Nat × List Char) → List (Nat × List Char) → List LintResult
  | [], _ => []
  | (ln, col) :: rest, seen =>
    if isUnqualifiedL col then
      if (ln, col) ∈ seen then unqLoop file rest seen
      else
        (⟨"UNQUALIFIED_COLUMNS", "WARNING", ln, String.mk file,
          "Column appears unqualified. Use table alias.",
          "Detects columns that are not qualified with table alias/name"⟩ : LintResult) ::
        unqLoop file rest (seen ++ [(ln, col)])
    else unqLoop file rest seen

/-- Core of `RuleUnqualifiedColumns.check`: normalize, extract aliases, and,
only when an alias exists, report unqualified columns. -/
def RuleUnqualifiedColumns.checkL (sql file : List Char) : List LintResult :=
  let norm := normalizeSql sql
  if (aliasList norm).isEmpty then []
  else unqLoop file (extractCols norm) []

/-- The source method `RuleUnqualifiedColumns.check`. -/
def RuleUnqualifiedColumns.check (sql : String) (file : String) : List LintResult :=
  RuleUnqualifiedColumns.checkL sql.toList file.toList

/-- One step of the parenthesis-depth counter of `_extract_over_clause`. -/
def parenStep (d : Nat) (c : Char) : Nat :=
  if c = '(' then d + 1 else if c = ')' then d - 1 else d

/-- The scanning loop of `_extract_over_clause`: collect characters until the
depth reaches zero (the closing parenthesis excluded), or the whole remainder
when no balancing close exists. -/
def scanParen : List Char → Nat → List Char
  | [], _ => []
  | c :: rest, d =>
    if parenStep d c = 0 then [] else c :: scanParen rest (parenStep d c)

/-- Core of `RuleWindowOrderBy._extract_over_clause`: `none` exactly when the
offset is out of bounds, otherwise scan from just after the opening
parenthesis with depth 1. -/
def extractOverClauseL (line : List Char) (p : Nat) : Option (List Char) :=
  if line.length ≤ p then none else some (scanParen (line.drop (p + 1)) 1)

/-- The source method `RuleWindowOrderBy._extract_over_clause`. -/
def RuleWindowOrderBy.extract_over_clause (line : String) (p : Nat) : Option String :=
  (extractOverClauseL line.toList p).map String.mk

/-- Parenthesis depth after processing the first `k` characters, starting
from depth `d`. -/
def depthAt (l : List Char) (d k : Nat) : Nat := (l.take k).foldl parenStep d

/-- Declarative matching-close specification: the character at index `k`
brings the depth to zero for the first time (all earlier prefixes keep a
positive depth). -/
def closeAt (l : List Char) (d k : Nat) : Prop :=
  k < l.length ∧ depthAt l d (k + 1) = 0 ∧ ∀ m, m ≤ k → 0 < depthAt l d m

instance (l : List Char) (d k : Nat) : Decidable (closeAt l d k) := by
  unfold closeAt
  infer_instance

/-!  Lemmas about the embedding. -/

theorem hasPair_tail (a b x : Char) (xs : List Char) (h : hasPair a b (x :: xs) = false) :
    hasPair a b xs = false := by
  cases xs with
  | nil => simp [hasPair]
  | cons y t =>
    rw [hasPair] at h
    split at h
    · exact absurd h (by simp)
    · exact h

theorem hasPair_cons_false (a b x : Char) (xs : List Char)
    (hx : hasPair a b xs = false) (hhead : ¬(x = a ∧ xs.head? = some b)) :
    hasPair a b (x :: xs) = false := by
  cases xs with
  | nil => simp [hasPair]
  | cons y t =>
    rw [hasPair]
    split
    · rename_i hxy
      exact absurd ⟨hxy.1, by simp [hxy.2]⟩ hhead
    · exact hx

theorem hasPair_head_true (a b : Char) (t : List Char) :
    hasPair a b (a :: b :: t) = true := by
  rw [hasPair]
  simp

theorem count_le_cons (x c : Char) (l : List Char) :
    l.count x ≤ (c :: l).count x := by
  simp only [List.count_cons]
  split <;> omega

theorem lineStripGo_count (s : List Char) :
    ∀ st : Bool, (lineStripGo st s).count '\n' = s.count '\n' := by
  induction s with
  | nil => intro st; cases st <;> simp [lineStripGo]
  | cons c rest ih =>
    intro st
    cases st with
    | true =>
      rw [lineStripGo]
      split
      · rename_i hc
        subst hc
        rw [List.count_cons_self, List.count_cons_self, ih false]
      · rename_i hc
        rw [ih true, List.count_cons_of_ne (fun h => hc h.symm)]
    | false =>
      rw [lineStripGo]
      split
      · rename_i hc
        subst hc
        rw [List.count_cons_self, List.count_cons_self, ih false]
      · split
        · rename_i hc hdash
          have hne : ('\n' : Char) ≠ c := by rw [hdash.1]; decide
          rw [ih true, List.count_cons_of_ne hne]
        · rename_i hc hdash
          rw [List.count_cons_of_ne (fun h => hc h.symm),
            List.count_cons_of_ne (fun h => hc h.symm), ih false]

theorem lineStripGo_true_head (r : List Char) :
    (lineStripGo true r).head? = none ∨ (lineStripGo true r).head? = some '\n' := by
  induction r with
  | nil => left; simp [lineStripGo]
  | cons c t ih =>
    rw [lineStripGo]
    split
    · rename_i hc
      subst hc
      right; simp
    · exact ih

theorem lineStripGo_false_head (r : List Char) :
    (lineStripGo false r).head? = none ∨ (lineStripGo false r).head? = r.head? ∨
      (lineStripGo false r).head? = some '\n' := by
  cases r with
  | nil => left; simp [lineStripGo]
  | cons d t =>
    rw [lineStripGo]
    split
    · rename_i hd
      subst hd
      right; left; simp
    · split
      · rcases lineStripGo_true_head t with h | h
        · left; exact h
        · right; right; exact h
      · right; left; simp

theorem lineStripGo_noPair (u v : Char) (hu : u ≠ '\n') (hv : v ≠ '\n')
    (s : List Char) : ∀ st : Bool, hasPair u v s = false →
    hasPair u v (lineStripGo st s) = false := by
  induction s with
  | nil => intro st _; cases st <;> simp [lineStripGo, hasPair]
  | cons c rest ih =>
    intro st h
    have hrest : hasPair u v rest = false := hasPair_tail u v c rest h
    cases st with
    | true =>
      rw [lineStripGo]
      split
      · rename_i hc
        subst hc
        refine hasPair_cons_false _ _ _ _ (ih false hrest) ?_
        rintro ⟨h1, _⟩
        exact hu h1.symm
      · exact ih true hrest
    | false =>
      rw [lineStripGo]
      split
      · rename_i hc
        subst hc
        refine hasPair_cons_false _ _ _ _ (ih false hrest) ?_
        rintro ⟨h1, _⟩
        exact hu h1.symm
      · split
        · exact ih true hrest
        · refine hasPair_cons_false _ _ _ _ (ih false hrest) ?_
          rintro ⟨h1, h2⟩
          rcases lineStripGo_false_head rest with hh | hh | hh
          · rw [hh] at h2; exact Option.noConfusion h2
          · rw [hh] at h2
            cases rest with
            | nil => exact Option.noConfusion h2
            | cons y t =>
              have hy : y = v := by
                simp only [List.head?_cons, Option.some.injEq] at h2
                exact h2
              subst hy
              subst h1
              rw [hasPair_head_true] at h
              exact Bool.noConfusion h
          · rw [hh] at h2
            have : '\n' = v := by simpa using h2
            exact hv this.symm

theorem lineStripGo_noDD (s : List Char) :
    ∀ st : Bool, hasPair '-' '-' (lineStripGo st s) = false := by
  induction s with
  | nil => intro st; cases st <;> simp [lineStripGo, hasPair]
  | cons c rest ih =>
    intro st
    cases st with
    | true =>
      rw [lineStripGo]
      split
      · rename_i hc
        subst hc
        refine hasPair_cons_false _ _ _ _ (ih false) ?_
        rintro ⟨h1, _⟩
        exact absurd h1 (by decide)
      · exact ih true
    | false =>
      rw [lineStripGo]
      split
      · rename_i hc
        subst hc
        refine hasPair_cons_false _ _ _ _ (ih false) ?_
        rintro ⟨h1, _⟩
        exact absurd h1 (by decide)
      · split
        · exact ih true
        · rename_i hc hdash
          refine hasPair_cons_false _ _ _ _ (ih false) ?_
          rintro ⟨h1, h2⟩
          rcases lineStripGo_false_head rest with hh | hh | hh
          · rw [hh] at h2; exact Option.noConfusion h2
          · rw [hh] at h2
            exact hdash ⟨h1, h2⟩
          · rw [hh] at h2
            have h3 : '\n' = '-' := by
              simp only [Option.some.injEq] at h2
              exact h2
            exact absurd h3 (by decide)

theorem lineStripGo_id (s : List Char) (h : hasPair '-' '-' s = false) :
    lineStripGo false s = s := by
  induction s with
  | nil => simp [lineStripGo]
  | cons c rest ih =>
    have hrest : hasPair '-' '-' rest = false := hasPair_tail _ _ c rest h
    rw [lineStripGo]
    split
    · rw [ih hrest]
    · split
      · rename_i hc hdash
        obtain ⟨h1, h2⟩ := hdash
        subst h1
        cases rest with
        | nil => exact Option.noConfusion h2
        | cons y t =>
          have hy : y = '-' := by simpa using h2
          subst hy
          rw [hasPair_head_true] at h
          exact Bool.noConfusion h
      · rw [ih hrest]

theorem lineStrip_idem (s : List Char) : lineStrip (lineStrip s) = lineStrip s :=
  lineStripGo_id _ (lineStripGo_noDD s false)

theorem blockGo_count_le (s : List Char) :
    ∀ j : Nat, (blockGo j s).count '\n' ≤ s.count '\n' := by
  induction s with
  | nil => intro j; simp [blockGo]
  | cons c rest ih =>
    intro j
    cases j with
    | succ j => exact Nat.le_trans (ih j) (count_le_cons _ _ _)
    | zero =>
      rw [blockGo]
      split
      · split
        · exact Nat.le_trans (ih _) (count_le_cons _ _ _)
        · rw [List.count_cons, List.count_cons]
          have := ih 0
          split <;> omega
      · rw [List.count_cons, List.count_cons]
        have := ih 0
        split <;> omega

theorem blockGo_id (s : List Char) (h : hasPair '/' '*' s = false) :
    blockGo 0 s = s := by
  induction s with
  | nil => simp [blockGo]
  | cons c rest ih =>
    have hrest : hasPair '/' '*' rest = false := hasPair_tail _ _ c rest h
    rw [blockGo]
    split
    · rename_i hop
      obtain ⟨h1, h2⟩ := hop
      subst h1
      cases rest with
      | nil => exact Option.noConfusion h2
      | cons y t =>
        have hy : y = '*' := by simpa using h2
        subst hy
        rw [hasPair_head_true] at h
        exact Bool.noConfusion h
    · rw [ih hrest]

theorem lineStrip_count (s : List Char) :
    (lineStrip s).count '\n' = s.count '\n' :=
  lineStripGo_count s false

theorem normalizeSql_count_le (s : List Char) :
    (normalizeSql s).count '\n' ≤ s.count '\n' := by
  have h1 := blockGo_count_le (lineStrip s) 0
  rw [lineStrip_count] at h1
  exact h1

theorem normalizeSql_count_eq (s : List Char) (h : hasPair '/' '*' s = false) :
    (normalizeSql s).count '\n' = s.count '\n' := by
  have h1 : hasPair '/' '*' (lineStrip s) = false :=
    lineStripGo_noPair _ _ (by decide) (by decide) s false h
  unfold normalizeSql
  rw [blockGo_id _ h1, lineStrip_count]

theorem normalizeSql_idem (s : List Char) (h : hasPair '/' '*' s = false) :
    normalizeSql (normalizeSql s) = normalizeSql s := by
  have h1 : hasPair '/' '*' (lineStrip s) = false :=
    lineStripGo_noPair _ _ (by decide) (by decide) s false h
  have e1 : normalizeSql s = lineStrip s := blockGo_id _ h1
  rw [e1]
  show blockGo 0 (lineStrip (lineStrip s)) = lineStrip s
  rw [lineStrip_idem]
  exact blockGo_id _ h1

theorem maskGo_length (q : Char) (s : List Char) :
    ∀ j : Nat, (maskGo q j s).length = s.length := by
  induction s with
  | nil => intro j; cases j <;> simp [maskGo]
  | cons c rest ih =>
    intro j
    cases j with
    | succ j => simp [maskGo, ih j]
    | zero =>
      rw [maskGo]
      split
      · split <;> simp [ih]
      · simp [ih 0]

theorem maskQuotes_length (s : List Char) : (maskQuotes s).length = s.length := by
  unfold maskQuotes
  rw [maskGo_length, maskGo_length]

/-- Pointwise relation between a raw line and its masked form: each position
either keeps its character or is blanked to a space. -/
inductive Agrees : List Char → List Char → Prop
  | nil : Agrees [] []
  | same (c : Char) {l1 l2 : List Char} : Agrees l1 l2 → Agrees (c :: l1) (c :: l2)
  | blank (c : Char) {l1 l2 : List Char} : Agrees l1 l2 → Agrees (c :: l1) (' ' :: l2)

theorem agrees_get (a b : List Char) (h : Agrees a b) :
    ∀ k : Nat, b.get? k = a.get? k ∨ b.get? k = some ' ' := by
  induction h with
  | nil => intro k; left; rfl
  | same c _ ih =>
    intro k
    cases k with
    | zero => left; rfl
    | succ k => exact ih k
  | blank c _ ih =>
    intro k
    cases k with
    | zero => right; rfl
    | succ k => exact ih k

theorem agrees_trans (a b c : List Char) (h1 : Agrees a b) (h2 : Agrees b c) :
    Agrees a c := by
  induction h1 generalizing c with
  | nil =>
    cases h2
    exact Agrees.nil
  | same x h ih =>
    cases h2 with
    | same _ h2' => exact Agrees.same _ (ih _ h2')
    | blank _ h2' => exact Agrees.blank _ (ih _ h2')
  | blank x h ih =>
    cases h2 with
    | same _ h2' => exact Agrees.blank _ (ih _ h2')
    | blank _ h2' => exact Agrees.blank _ (ih _ h2')

theorem maskGo_agrees (q : Char) (s : List Char) :
    ∀ j : Nat, Agrees s (maskGo q j s) := by
  induction s with
  | nil => intro j; cases j <;> exact Agrees.nil
  | cons c rest ih =>
    intro j
    cases j with
    | succ j =>
      rw [maskGo]
      exact Agrees.blank _ (ih j)
    | zero =>
      rw [maskGo]
      split
      · split
        · exact Agrees.blank _ (ih _)
        · exact Agrees.same _ (ih 0)
      · exact Agrees.same _ (ih 0)

theorem maskQuotes_agrees (s : List Char) : Agrees s (maskQuotes s) :=
  agrees_trans _ _ _ (maskGo_agrees sqChar s 0) (maskGo_agrees dqChar _ 0)

theorem depthAt_zero (l : List Char) (d : Nat) : depthAt l d 0 = d := by
  simp [depthAt]

theorem depthAt_cons (c : Char) (rest : List Char) (d k : Nat) :
    depthAt (c :: rest) d (k + 1) = depthAt rest (parenStep d c) k := by
  simp [depthAt, List.take_succ_cons]

theorem scanParen_eq_take (l : List Char) :
    ∀ (d k : Nat), closeAt l d k → scanParen l d = l.take k := by
  induction l with
  | nil =>
    intro d k hk
    exact absurd hk.1 (by simp)
  | cons c rest ih =>
    intro d k hk
    obtain ⟨hlen, hz, hpos⟩ := hk
    by_cases hd : parenStep d c = 0
    · have hk0 : k = 0 := by
        by_contra hne
        have h1 : 0 < depthAt (c :: rest) d 1 := hpos 1 (Nat.one_le_iff_ne_zero.mpr hne)
        rw [show (1 : Nat) = 0 + 1 from rfl, depthAt_cons, depthAt_zero] at h1
        omega
      subst hk0
      rw [scanParen, if_pos hd]
      rfl
    · have hk1 : k ≠ 0 := by
        intro h0
        subst h0
        rw [show (0 : Nat) + 1 = 0 + 1 from rfl, depthAt_cons, depthAt_zero] at hz
        exact hd hz
      obtain ⟨k', rfl⟩ : ∃ k', k = k' + 1 := ⟨k - 1, by omega⟩
      have hz' : depthAt rest (parenStep d c) (k' + 1) = 0 := by
        rw [← depthAt_cons c rest d (k' + 1)]
        exact hz
      have hpos' : ∀ m, m ≤ k' → 0 < depthAt rest (parenStep d c) m := by
        intro m hm
        have := hpos (m + 1) (by omega)
        rw [depthAt_cons] at this
        exact this
      have hlen' : k' < rest.length := by
        simp at hlen
        omega
      rw [scanParen, if_neg hd, ih (parenStep d c) k' ⟨hlen', hz', hpos'⟩,
        List.take_succ_cons]

theorem scanParen_eq_self (l : List Char) :
    ∀ d : Nat, 0 < d → (∀ k, ¬ closeAt l d k) → scanParen l d = l := by
  induction l with
  | nil => intro d _ _; rfl
  | cons c rest ih =>
    intro d hd hno
    by_cases h0 : parenStep d c = 0
    · refine absurd ?_ (hno 0)
      refine ⟨by simp, ?_, ?_⟩
      · rw [show (0 : Nat) + 1 = 0 + 1 from rfl, depthAt_cons, depthAt_zero]
        exact h0
      · intro m hm
        have hm0 : m = 0 := by omega
        subst hm0
        rw [depthAt_zero]
        exact hd
    · have hd' : 0 < parenStep d c := Nat.pos_of_ne_zero h0
      have hno' : ∀ k, ¬ closeAt rest (parenStep d c) k := by
        intro k hk
        have hkl := hk.1
        refine hno (k + 1) ⟨by simp; omega, ?_, ?_⟩
        · rw [depthAt_cons]
          exact hk.2.1
        · intro m hm
          cases m with
          | zero => rw [depthAt_zero]; exact hd
          | succ m =>
            rw [depthAt_cons]
            exact hk.2.2 m (by omega)
      rw [scanParen, if_neg h0, ih (parenStep d c) hd' hno']

theorem get_of_drop (l : List Char) :
    ∀ (k : Nat) (c : Char) (r : List Char), l.drop k = c :: r → l.get? k = some c := by
  induction l with
  | nil =>
    intro k c r h
    rw [List.drop_nil] at h
    exact List.noConfusion h
  | cons x xs ih =>
    intro k c r h
    cases k with
    | zero =>
      rw [List.drop_zero] at h
      rw [h]
      rfl
    | succ k =>
      rw [List.drop_succ_cons] at h
      exact ih k c r h

theorem kwGo_mem (ws : List (List Char)) (l : List Char) :
    ∀ (j : Nat) (prev : Option Char) (i s e : Nat), (s, e) ∈ kwGo ws j prev i l →
      ∃ k n, s = i + k ∧ kwMatchAt ws (l.drop k) = some n := by
  induction l with
  | nil =>
    intro j prev i s e h
    rw [kwGo] at h
    exact absurd h (List.not_mem_nil _)
  | cons c rest ih =>
    intro j prev i s e h
    have shift : ∀ s e, (s, e) ∈ kwGo ws 0 (some c) (i + 1) rest ∨
        (∃ j', (s, e) ∈ kwGo ws j' (some c) (i + 1) rest) →
        ∃ k n, s = i + k ∧ kwMatchAt ws ((c :: rest).drop k) = some n := by
      intro s e hmem
      have hmem' : ∃ j', (s, e) ∈ kwGo ws j' (some c) (i + 1) rest := by
        rcases hmem with h | h
        · exact ⟨0, h⟩
        · exact h
      obtain ⟨j', hj⟩ := hmem'
      obtain ⟨k, n, hs, hmat⟩ := ih j' (some c) (i + 1) s e hj
      exact ⟨k + 1, n, by omega, by rw [List.drop_succ_cons]; exact hmat⟩
    cases j with
    | succ j =>
      rw [kwGo] at h
      exact shift s e (Or.inr ⟨j, h⟩)
    | zero =>
      rw [kwGo] at h
      split at h
      · split at h
        · rename_i n hmat
          rcases List.mem_cons.mp h with heq | htail
          · have hs : s = i := congrArg Prod.fst heq
            have he : e = i + n := congrArg Prod.snd heq
            exact ⟨0, n, by omega, by rw [List.drop_zero]; exact hmat⟩
          · exact shift s e (Or.inr ⟨n - 1, htail⟩)
        · exact shift s e (Or.inr ⟨0, h⟩)
      · exact shift s e (Or.inr ⟨0, h⟩)

theorem matchCI_head (w : Char) (ws l r : List Char)
    (h : matchCI (w :: ws) l = some r) :
    ∃ c cs, l = c :: cs ∧ lowEq w c = true := by
  cases l with
  | nil => exact Option.noConfusion h
  | cons c cs =>
    rw [matchCI] at h
    split at h
    · rename_i hlow
      exact ⟨c, cs, rfl, hlow⟩
    · exact Option.noConfusion h

/-- Head-character sanity of a keyword: its first word starts with a
character whose lowercase form is not a space. -/
def kwHeadOk (kw : List Char) : Bool :=
  match kwWords kw with
  | (c :: _) :: _ => c.toLower != ' '
  | _ => false

theorem sortedKeywords_headOk : sortedKeywords.all kwHeadOk = true := by decide

theorem kwInner_fst_mem (raw : List Char) :
    ∀ (ms acc : List (Nat × Nat)) (x : Nat × Nat × List Char),
      x ∈ (kwInner raw ms acc).1 → (x.1, x.2.1) ∈ ms := by
  intro ms
  induction ms with
  | nil =>
    intro acc x h
    rw [kwInner] at h
    exact absurd h (List.not_mem_nil _)
  | cons m ms ih =>
    intro acc x h
    obtain ⟨s, e⟩ := m
    rw [kwInner] at h
    split at h
    · exact List.mem_cons_of_mem _ (ih acc x h)
    · split at h
      · exact List.mem_cons_of_mem _ (ih _ x h)
      · rcases List.mem_cons.mp h with heq | htail
        · rw [heq]
          exact List.mem_cons_self _ _
        · exact List.mem_cons_of_mem _ (ih _ x htail)

theorem kwLoop_mem (raw masked : List Char) :
    ∀ (kws : List (List Char)) (acc : List (Nat × Nat)) (x : Nat × Nat × List Char),
      x ∈ kwLoop raw masked kws acc →
      ∃ kw, kw ∈ kws ∧ (x.1, x.2.1) ∈ kwGo (kwWords kw) 0 none 0 masked := by
  intro kws
  induction kws with
  | nil =>
    intro acc x h
    rw [kwLoop] at h
    exact absurd h (List.not_mem_nil _)
  | cons kw kws ih =>
    intro acc x h
    rw [kwLoop] at h
    rcases List.mem_append.mp h with hl | hr
    · exact ⟨kw, List.mem_cons_self _ _, kwInner_fst_mem raw _ _ x hl⟩
    · obtain ⟨kw', h1, h2⟩ := ih _ x hr
      exact ⟨kw', List.mem_cons_of_mem _ h1, h2⟩

theorem splitCh_single (l : List Char) (h : '\n' ∉ l) : splitCh '\n' l = [l] := by
  induction l with
  | nil => rfl
  | cons c rest ih =>
    simp only [List.mem_cons, not_or] at h
    have hc : ¬ c = '\n' := fun hh => h.1 hh.symm
    rw [splitCh, ih h.2]
    simp only [if_neg hc]

theorem extractCols_single (l : List Char) (h1 : '\n' ∉ l)
    (h2 : terminatorHit l = true) : extractCols l = [] := by
  unfold extractCols
  rw [splitCh_single l h1]
  cases hsel : hasSelectKw l <;> simp [extractColsGo, h2, hsel]

/-!  Claim theorems. -/

/-- Claim C1, counterexample: on the single-line input
`SELECT amount, o.total FROM orders o` the rule reports no violation at all
(the claim asserts exactly one, for `amount`): the line holding both `SELECT`
and `FROM` is excluded from the projection span before columns are read. -/
theorem c1_counterexample :
    RuleUnqualifiedColumns.check "SELECT amount, o.total FROM orders o" "" = [] := by
  decide

/-- Claim C1 (corrected): a single-line input on which the clause-terminator
pattern matches yields no extracted columns at all — when `SELECT` and a
terminator share a line, that line is dropped from the projection span — and
consequently `RuleUnqualifiedColumns.check` returns zero violations on
`SELECT amount, o.total FROM orders o`. -/
theorem c1_amended (l : List Char) (h1 : '\n' ∉ l) (h2 : terminatorHit l = true) :
    extractCols l = [] ∧
    RuleUnqualifiedColumns.check "SELECT amount, o.total FROM orders o" "" = [] :=
  ⟨extractCols_single l h1 h2, by decide⟩

/-- Claim C1, witness: the amended statement instantiated at the concrete
single-line input. -/
theorem c1_witness :
    extractCols ("SELECT amount, o.total FROM orders o".toList) = [] :=
  (c1_amended ("SELECT amount, o.total FROM orders o".toList) (by decide) (by decide)).1

/-- Claim C2, counterexample: the alias set extracted from
`FROM orders o, customers c` does not contain `c`, contradicting the claimed
set `{o, c}` (only the pair after the literal `FROM` keyword is captured). -/
theorem c2_counterexample :
    "c" ∉ RuleUnqualifiedColumns.extract_table_aliases "FROM orders o, customers c" := by
  decide

/-- Claim C2 (corrected): alias extraction over `FROM orders o, customers c`
returns exactly `{o}` — each match requires its own literal `FROM`, so later
comma-separated pairs are not captured — and over `FROM orders` (no alias)
returns the empty set. -/
theorem c2_theorem :
    RuleUnqualifiedColumns.extract_table_aliases "FROM orders o, customers c" = ["o"] ∧
    RuleUnqualifiedColumns.extract_table_aliases "FROM orders" = [] := by
  decide

/-- Claim C3, counterexample: normalization of the two-line input `/*`
newline `*/` produces a string with zero newlines while the input has one —
block-comment removal deletes the newlines inside the removed comment. -/
theorem c3_counterexample :
    ((normalize_sql "/*\n*/").toList.count '\n' = 0) ∧
    ("/*\n*/".toList.count '\n' = 1) := by
  decide

/-- Claim C3 (corrected): line-comment removal always preserves the newline
count; full normalization can only lose newlines (those inside removed block
comments), and preserves the count exactly whenever the input contains no
block-comment opener `/*`. -/
theorem c3_amended (s : List Char) :
    (lineStrip s).count '\n' = s.count '\n' ∧
    (normalizeSql s).count '\n' ≤ s.count '\n' ∧
    (hasPair '/' '*' s = false → (normalizeSql s).count '\n' = s.count '\n') :=
  ⟨lineStrip_count s, normalizeSql_count_le s, normalizeSql_count_eq s⟩

/-- Claim C3, witness: the amended statement instantiated at a concrete input
with a line comment and no block comment. -/
theorem c3_witness :
    (normalizeSql ("a -- b\nc".toList)).count '\n' = ("a -- b\nc".toList).count '\n' :=
  (c3_amended ("a -- b\nc".toList)).2.2 (by decide)

/-- Claim C4, counterexample: `normalize` is not idempotent: on the
seven-character input made of a dash, the block comment `/*x*/` and a dash,
the first pass yields `--` (removing the block comment splices a new line
comment marker together) and the second pass then yields the empty string. -/
theorem c4_counterexample :
    normalize_sql (normalize_sql "-/*x*/-") ≠ normalize_sql "-/*x*/-" := by
  decide

/-- Claim C4 (corrected): normalization is idempotent on every input that
contains no block-comment opener `/*`; in general removing a block comment
can splice the surrounding characters into a new comment marker. -/
theorem c4_theorem (s : List Char) (h : hasPair '/' '*' s = false) :
    normalizeSql (normalizeSql s) = normalizeSql s :=
  normalizeSql_idem s h

/-- Claim C4, witness: idempotence at a concrete comment-bearing input. -/
theorem c4_witness :
    normalizeSql (normalizeSql ("select 1 -- c\nfrom t".toList)) =
      normalizeSql ("select 1 -- c\nfrom t".toList) :=
  c4_theorem ("select 1 -- c\nfrom t".toList) (by decide)

/-- Claim C5 (confirmed): quote masking preserves the length of every line,
including lines with unterminated single or double quotes. -/
theorem c5_theorem (line : List Char) : (maskQuotes line).length = line.length :=
  maskQuotes_length line

/-- Claim C6 (confirmed): on `order by x` the keyword-case rule reports
exactly one violation, naming the full phrase `order by` — not two separate
violations for `order` and `by`. -/
theorem c6_theorem :
    RuleKeywordCase.check "order by x" "" =
      [⟨"KEYWORD_CASE", "INFO", 1, "",
        "Keyword \x27order by\x27 should be uppercase.",
        "Ensure core SQL keywords are uppercase"⟩] := by
  decide

/-- Claim C7 (confirmed): for an in-bounds opening-parenthesis offset the
extractor always succeeds; when some index closes the parenthesis (depth
first reaches zero there) the result is exactly the text strictly between
the parentheses, and otherwise it is the whole remainder of the line. -/
theorem c7_theorem (line : List Char) (p : Nat) (hp : p < line.length)
    (_ho : line.get? p = some '(') :
    (∃ r, extractOverClauseL line p = some r) ∧
    (∀ k, closeAt (line.drop (p + 1)) 1 k →
      extractOverClauseL line p = some ((line.drop (p + 1)).take k)) ∧
    ((∀ k, ¬ closeAt (line.drop (p + 1)) 1 k) →
      extractOverClauseL line p = some (line.drop (p + 1))) := by
  have hnot : ¬ line.length ≤ p := Nat.not_le.mpr hp
  refine ⟨⟨scanParen (line.drop (p + 1)) 1, ?_⟩, ?_, ?_⟩
  · rw [extractOverClauseL, if_neg hnot]
  · intro k hk
    rw [extractOverClauseL, if_neg hnot, scanParen_eq_take _ 1 k hk]
  · intro hno
    rw [extractOverClauseL, if_neg hnot, scanParen_eq_self _ 1 (by omega) hno]

/-- Claim C7, witness: the nested-parenthesis example — extracting from the
first opening parenthesis of `OVER (PARTITION BY a ORDER BY (b))` returns
`PARTITION BY a ORDER BY (b)` exactly. -/
theorem c7_witness :
    extractOverClauseL ("OVER (PARTITION BY a ORDER BY (b))".toList) 5 =
      some ((("OVER (PARTITION BY a ORDER BY (b))".toList).drop 6).take 27) ∧
    (("OVER (PARTITION BY a ORDER BY (b))".toList).drop 6).take 27 =
      "PARTITION BY a ORDER BY (b)".toList :=
  ⟨(c7_theorem ("OVER (PARTITION BY a ORDER BY (b))".toList) 5 (by decide)
      (by decide)).2.1 27 (by decide), by decide⟩

/-- Claim C8 (confirmed): every keyword-case match accepted on a line starts
at a position the quote masking left unchanged — in particular the start is
never inside a region blanked by masking, so keywords inside string literals
are never flagged. -/
theorem c8_theorem (raw : List Char) (x : Nat × Nat × List Char)
    (hx : x ∈ kwLineMatches raw) :
    (maskQuotes raw).get? x.1 = raw.get? x.1 ∧
    (maskQuotes raw).get? x.1 ≠ some ' ' := by
  rw [kwLineMatches] at hx
  obtain ⟨kw, hkw, hm⟩ := kwLoop_mem raw (maskQuotes raw) sortedKeywords [] x hx
  obtain ⟨k, n, hs, hmat⟩ := kwGo_mem (kwWords kw) (maskQuotes raw) 0 none 0 x.1 x.2.1 hm
  have hx1 : x.1 = k := by omega
  have hok := List.all_eq_true.mp sortedKeywords_headOk kw hkw
  rw [kwHeadOk] at hok
  cases hw : kwWords kw with
  | nil =>
    rw [hw] at hok
    exact Bool.noConfusion hok
  | cons w ws' =>
    cases w with
    | nil =>
      rw [hw] at hok
      exact Bool.noConfusion hok
    | cons wc w' =>
      rw [hw] at hok
      have hok' : wc.toLower ≠ ' ' := by simpa using hok
      rw [hw, kwMatchAt] at hmat
      cases hci : matchCI (wc :: w') ((maskQuotes raw).drop k) with
      | none =>
        rw [hci] at hmat
        exact Option.noConfusion hmat
      | some l1 =>
        obtain ⟨c, cs, hdrop, hlow⟩ := matchCI_head wc w' _ l1 hci
        have hget : (maskQuotes raw).get? k = some c := get_of_drop _ k c cs hdrop
        have hc : c ≠ ' ' := by
          intro hsp
          subst hsp
          rw [lowEq] at hlow
          have : wc.toLower = ' ' := by simpa using hlow
          exact hok' this
        rcases agrees_get raw (maskQuotes raw) (maskQuotes_agrees raw) k with he | hb
        · refine ⟨by rw [hx1]; exact he, ?_⟩
          rw [hx1, hget]
          simp [hc]
        · rw [hget] at hb
          have : c = ' ' := by simpa using hb
          exact absurd this hc

/-- Claim C8, witness: the theorem applied to a line whose keyword-case scan
accepts a match (the lowercase `from` of `x from y`). -/
theorem c8_witness :
    (maskQuotes ("x from y".toList)).get? 2 = ("x from y".toList).get? 2 :=
  (c8_theorem ("x from y".toList) (2, 6, "from".toList) (by decide)).1

/-- Claim C9 (confirmed): whenever the normalized input yields an empty alias
set, `RuleUnqualifiedColumns.check` returns zero violations. -/
theorem c9_theorem (sql file : String)
    (h : aliasList (normalizeSql sql.toList) = []) :
    RuleUnqualifiedColumns.check sql file = [] := by
  have h2 : aliasList (normalizeSql sql.data) = [] := h
  unfold RuleUnqualifiedColumns.check RuleUnqualifiedColumns.checkL
  simp [h2]

/-- Claim C9, witness: `SELECT amount, total FROM orders` (no alias) produces
no unqualified-column violations. -/
theorem c9_witness :
    RuleUnqualifiedColumns.check "SELECT amount, total FROM orders" "" = [] :=
  c9_theorem "SELECT amount, total FROM orders" "" (by decide)

/-- Claim C10 (confirmed): `RuleSelectStar.check` scans the raw text, so
`select *` occurrences inside a line comment (line 1), a block comment
(line 2) and string literals (lines 3 and 4) are all reported on their lines;
the same scan run after comment removal keeps only the literal lines, and
quote masking would erase the literal occurrence — neither is applied by the
rule. -/
theorem c10_theorem :
    RuleSelectStar.check "-- select *\n/* select * */\nx \x22select *\x22\ny \x27select *\x27" "" =
      [⟨"SELECT_STAR", "WARNING", 1, "", "Avoid SELECT *. Explicitly list columns.",
        "Avoid SELECT *. Explicitly list columns."⟩,
       ⟨"SELECT_STAR", "WARNING", 2, "", "Avoid SELECT *. Explicitly list columns.",
        "Avoid SELECT *. Explicitly list columns."⟩,
       ⟨"SELECT_STAR", "WARNING", 3, "", "Avoid SELECT *. Explicitly list columns.",
        "Avoid SELECT *. Explicitly list columns."⟩,
       ⟨"SELECT_STAR", "WARNING", 4, "", "Avoid SELECT *. Explicitly list columns.",
        "Avoid SELECT *. Explicitly list columns."⟩] ∧
    RuleSelectStar.check
      (normalize_sql "-- select *\n/* select * */\nx \x22select *\x22\ny \x27select *\x27") "" =
      [⟨"SELECT_STAR", "WARNING", 3, "", "Avoid SELECT *. Explicitly list columns.",
        "Avoid SELECT *. Explicitly list columns."⟩,
       ⟨"SELECT_STAR", "WARNING", 4, "", "Avoid SELECT *. Explicitly list columns.",
        "Avoid SELECT *. Explicitly list columns."⟩] ∧
    starFind (maskQuotes ("x \x22select *\x22".toList)) = [] ∧
    starFind (maskQuotes ("y \x27select *\x27".toList)) = [] := by
  decide
